import Mathlib

/-!
Verification development for the `vodka` crates: a PE header parser
(`vodka-pe`), its C-callable boundary (`vodka-core`), and a wine version-tag
normalizer (`vodka-runtime`).  Bytes are modelled as `Fin 256`, byte buffers
as `List Byte`, multi-byte integers as `Nat` built little-endian, fallible
reads as `Option`.
-/

/-- A byte: an integer in `[0, 256)`. -/
abbrev Byte := Fin 256

/-- The byte at index `i` (as a `Nat`); `0` past the end.  Every use below is
guarded by a bounds check, so the default is never observed. -/
def byteAt (bytes : List Byte) (i : Nat) : Nat :=
  (bytes.getD i 0).val

/-- Model of `read_u16_le`: `bytes.get(offset..offset+2)` then
`u16::from_le_bytes`. -/
def read_u16_le (bytes : List Byte) (offset : Nat) : Option Nat :=
  if offset + 2 ≤ bytes.length then
    some (byteAt bytes offset + 256 * byteAt bytes (offset + 1))
  else
    none

/-- Model of `read_u32_le`: `bytes.get(offset..offset+4)` then
`u32::from_le_bytes`. -/
def read_u32_le (bytes : List Byte) (offset : Nat) : Option Nat :=
  if offset + 4 ≤ bytes.length then
    some (byteAt bytes offset + 256 * byteAt bytes (offset + 1) +
          65536 * byteAt bytes (offset + 2) + 16777216 * byteAt bytes (offset + 3))
  else
    none

/-- Model of the bounds-checked slice `bytes.get(offset..offset+len)`. -/
def getSlice (bytes : List Byte) (offset len : Nat) : Option (List Byte) :=
  if offset + len ≤ bytes.length then
    some ((bytes.drop offset).take len)
  else
    none

/-- The 4-byte PE signature `P E NUL NUL`. -/
def peSig : List Byte := [0x50, 0x45, 0x00, 0x00]

/-- Model of `inspect_pe_bytes` from `vodka-pe/src/lib.rs`: the outcome is
`some (machine, subsystem, entry_point_rva)` (Recognized) or `none`
(Unrecognized). -/
def inspect_pe_bytes (bytes : List Byte) : Option (Nat × Nat × Nat) :=
  if bytes.length < 0x40 then none else
  match read_u32_le bytes 0x3C with
  | none => none
  | some pe_offset =>
    match getSlice bytes pe_offset 4 with
    | none => none
    | some sig =>
      if sig ≠ peSig then none else
      let coff_offset := pe_offset + 4
      match read_u16_le bytes coff_offset with
      | none => none
      | some machine =>
        match read_u16_le bytes (coff_offset + 16) with
        | none => none
        | some optional_size =>
          let optional_offset := coff_offset + 20
          if optional_size < 0x46 then none else
          match read_u16_le bytes optional_offset with
          | none => none
          | some magic =>
            if magic ≠ 0x10B ∧ magic ≠ 0x20B then none else
            match read_u32_le bytes (optional_offset + 0x10) with
            | none => none
            | some entry_point_rva =>
              match read_u16_le bytes (optional_offset + 0x44) with
              | none => none
              | some subsystem => some (machine, subsystem, entry_point_rva)

/-- Overwrite the bytes of `l` starting at index `i` with `vs`
(the model of `slice.copy_from_slice` on `l[i..i+vs.len()]`). -/
def setBytes : List Byte → Nat → List Byte → List Byte
  | l, _, [] => l
  | l, i, v :: vs => setBytes (l.set i v) (i + 1) vs

/-- The 512-byte test buffer of `build_minimal_pe` in `vodka-pe`'s tests:
all zero except the listed little-endian fields. -/
def build_minimal_pe : List Byte :=
  let b := List.replicate 0x200 (0 : Byte)
  let b := setBytes b 0x00 [0x4D, 0x5A]
  let b := setBytes b 0x3C [0x80, 0x00, 0x00, 0x00]
  let b := setBytes b 0x80 [0x50, 0x45, 0x00, 0x00]
  let b := setBytes b 0x84 [0x64, 0x86]
  let b := setBytes b 0x94 [0xF0, 0x00]
  let b := setBytes b 0x98 [0x0B, 0x02]
  let b := setBytes b 0xA8 [0x78, 0x56, 0x34, 0x12]
  let b := setBytes b 0xDC [0x02, 0x00]
  b

set_option maxRecDepth 8192 in
/-- C2: on the 512-byte buffer that is all zero except the DOS magic, the
PE-offset field 0x80 at 0x3C, the signature at 0x80, machine 0x8664 at
COFF+0, optional-header size 0x00F0 at COFF+16, magic 0x020B at optional+0,
entry-point RVA 0x12345678 at optional+0x10 and subsystem 2 at
optional+0x44, `inspect_pe_bytes` recognizes the header and extracts
machine 0x8664, subsystem 2, entry-point RVA 0x12345678. -/
theorem inspect_pe_bytes_minimal_pe :
    inspect_pe_bytes build_minimal_pe = some (0x8664, 2, 0x12345678) := by
  decide

/-- C3: every buffer shorter than 0x40 bytes is Unrecognized. -/
theorem inspect_pe_bytes_short (bytes : List Byte) (h : bytes.length < 0x40) :
    inspect_pe_bytes bytes = none := by
  unfold inspect_pe_bytes
  simp [h]

/-- Witness for C3 at the empty buffer. -/
theorem inspect_pe_bytes_short_witness : inspect_pe_bytes [] = none :=
  inspect_pe_bytes_short [] (by decide)

/-- Instrumented copy of `inspect_pe_bytes` that also returns the list of
`(offset, width)` windows actually dereferenced: a window enters the trace
exactly when its bounds check succeeded and its bytes were read. -/
def inspect_pe_bytes_traced (bytes : List Byte) :
    Option (Nat × Nat × Nat) × List (Nat × Nat) :=
  if bytes.length < 0x40 then (none, []) else
  match read_u32_le bytes 0x3C with
  | none => (none, [])
  | some pe_offset =>
    match getSlice bytes pe_offset 4 with
    | none => (none, [(0x3C, 4)])
    | some sig =>
      if sig ≠ peSig then (none, [(0x3C, 4), (pe_offset, 4)]) else
      match read_u16_le bytes (pe_offset + 4) with
      | none => (none, [(0x3C, 4), (pe_offset, 4)])
      | some machine =>
        match read_u16_le bytes (pe_offset + 4 + 16) with
        | none => (none, [(0x3C, 4), (pe_offset, 4), (pe_offset + 4, 2)])
        | some optional_size =>
          if optional_size < 0x46 then
            (none, [(0x3C, 4), (pe_offset, 4), (pe_offset + 4, 2),
                    (pe_offset + 4 + 16, 2)]) else
          match read_u16_le bytes (pe_offset + 4 + 20) with
          | none => (none, [(0x3C, 4), (pe_offset, 4), (pe_offset + 4, 2),
                            (pe_offset + 4 + 16, 2)])
          | some magic =>
            if magic ≠ 0x10B ∧ magic ≠ 0x20B then
              (none, [(0x3C, 4), (pe_offset, 4), (pe_offset + 4, 2),
                      (pe_offset + 4 + 16, 2), (pe_offset + 4 + 20, 2)]) else
            match read_u32_le bytes (pe_offset + 4 + 20 + 0x10) with
            | none => (none, [(0x3C, 4), (pe_offset, 4), (pe_offset + 4, 2),
                              (pe_offset + 4 + 16, 2), (pe_offset + 4 + 20, 2)])
            | some entry_point_rva =>
              match read_u16_le bytes (pe_offset + 4 + 20 + 0x44) with
              | none => (none, [(0x3C, 4), (pe_offset, 4), (pe_offset + 4, 2),
                                (pe_offset + 4 + 16, 2), (pe_offset + 4 + 20, 2),
                                (pe_offset + 4 + 20 + 0x10, 4)])
              | some subsystem =>
                (some (machine, subsystem, entry_point_rva),
                 [(0x3C, 4), (pe_offset, 4), (pe_offset + 4, 2),
                  (pe_offset + 4 + 16, 2), (pe_offset + 4 + 20, 2),
                  (pe_offset + 4 + 20 + 0x10, 4), (pe_offset + 4 + 20 + 0x44, 2)])

theorem byteAt_lt (bytes : List Byte) (i : Nat) : byteAt bytes i < 256 :=
  (bytes.getD i 0).isLt

theorem read_u16_le_bound {bytes : List Byte} {o v : Nat}
    (h : read_u16_le bytes o = some v) : o + 2 ≤ bytes.length := by
  by_cases hb : o + 2 ≤ bytes.length
  · exact hb
  · simp [read_u16_le, hb] at h

theorem read_u32_le_bound {bytes : List Byte} {o v : Nat}
    (h : read_u32_le bytes o = some v) : o + 4 ≤ bytes.length := by
  by_cases hb : o + 4 ≤ bytes.length
  · exact hb
  · simp [read_u32_le, hb] at h

theorem getSlice_bound {bytes : List Byte} {o l : Nat} {s : List Byte}
    (h : getSlice bytes o l = some s) : o + l ≤ bytes.length := by
  by_cases hb : o + l ≤ bytes.length
  · exact hb
  · simp [getSlice, hb] at h

theorem read_u32_le_lt {bytes : List Byte} {o v : Nat}
    (h : read_u32_le bytes o = some v) : v < 4294967296 := by
  by_cases hb : o + 4 ≤ bytes.length
  · simp only [read_u32_le, hb, if_pos, Option.some.injEq] at h
    have h0 := byteAt_lt bytes o
    have h1 := byteAt_lt bytes (o + 1)
    have h2 := byteAt_lt bytes (o + 2)
    have h3 := byteAt_lt bytes (o + 3)
    omega
  · simp [read_u32_le, hb] at h

/-- C4: a buffer of length at least 0x40 whose 4 bytes at the decoded PE
offset are not exactly `P E NUL NUL` — including the case where that 4-byte
window exceeds the buffer, when `getSlice` is `none` — is Unrecognized. -/
theorem inspect_pe_bytes_bad_sig (bytes : List Byte) (pe_offset : Nat)
    (h0 : 0x40 ≤ bytes.length)
    (h1 : read_u32_le bytes 0x3C = some pe_offset)
    (h2 : getSlice bytes pe_offset 4 ≠ some peSig) :
    inspect_pe_bytes bytes = none := by
  have hl : ¬ bytes.length < 0x40 := Nat.not_lt.mpr h0
  unfold inspect_pe_bytes
  simp only [hl, if_false, h1]
  cases hg : getSlice bytes pe_offset 4 with
  | none => rfl
  | some sig =>
    have hne : sig ≠ peSig := by
      intro he
      exact h2 (by rw [hg, he])
    simp [hne]

set_option maxRecDepth 8192 in
/-- Witness for C4: corrupting the first signature byte of the minimal PE
buffer (as in the repository's `rejects_invalid_signature` test) yields
Unrecognized. -/
theorem inspect_pe_bytes_bad_sig_witness :
    inspect_pe_bytes (build_minimal_pe.set 0x80 0x58) = none :=
  inspect_pe_bytes_bad_sig (build_minimal_pe.set 0x80 0x58) 0x80
    (by decide) (by decide) (by decide)

/-- C5: with the PE offset decoded from 0x3C, an optional-header size below
0x46 read at COFF+16, or an optional-header magic at optional+0 that is
neither 0x10B nor 0x20B, each force the Unrecognized outcome. -/
theorem inspect_pe_bytes_opt_checks (bytes : List Byte) (pe_offset : Nat)
    (h1 : read_u32_le bytes 0x3C = some pe_offset) :
    (∀ osize, read_u16_le bytes (pe_offset + 4 + 16) = some osize →
      osize < 0x46 → inspect_pe_bytes bytes = none) ∧
    (∀ magic, read_u16_le bytes (pe_offset + 4 + 20) = some magic →
      magic ≠ 0x10B → magic ≠ 0x20B → inspect_pe_bytes bytes = none) := by
  unfold inspect_pe_bytes
  by_cases hl : bytes.length < 0x40
  · simp [hl]
  · simp only [hl, if_false, h1]
    cases hg : getSlice bytes pe_offset 4 with
    | none => simp
    | some sig =>
      by_cases hsig : sig = peSig
      · subst hsig
        simp only [ne_eq, not_true_eq_false, if_false, ite_false]
        cases hm : read_u16_le bytes (pe_offset + 4) with
        | none => simp
        | some machine =>
          simp only []
          constructor
          · intro osize ho hsmall
            simp only [ho, hsmall, if_true, ite_true]
          · intro magic hmg hne1 hne2
            cases ho : read_u16_le bytes (pe_offset + 4 + 16) with
            | none => simp
            | some osize =>
              by_cases hos : osize < 0x46
              · simp [hos]
              · simp [hos, hmg, hne1, hne2]
      · simp [hsig]

set_option maxRecDepth 8192 in
/-- Witness for C5: shrinking the optional-header size field to 0x45, or
zeroing the optional-header magic, in the minimal PE buffer each yield
Unrecognized. -/
theorem inspect_pe_bytes_opt_checks_witness :
    inspect_pe_bytes (setBytes build_minimal_pe 0x94 [0x45, 0x00]) = none ∧
    inspect_pe_bytes (setBytes build_minimal_pe 0x98 [0x00, 0x00]) = none :=
  ⟨(inspect_pe_bytes_opt_checks (setBytes build_minimal_pe 0x94 [0x45, 0x00])
      0x80 (by decide)).1 0x45 (by decide) (by decide),
   (inspect_pe_bytes_opt_checks (setBytes build_minimal_pe 0x98 [0x00, 0x00])
      0x80 (by decide)).2 0 (by decide) (by decide) (by decide)⟩

/-- C1: the parse is total and memory-safe.  The instrumented parser follows
the real one outcome-for-outcome, every dereferenced window lies inside the
buffer (so no out-of-bounds read ever happens and a read whose window
exceeds the buffer only ever yields the Unrecognized outcome), and every
window end stays far below 2^64, so the source's usize offset arithmetic
cannot wrap. -/
theorem inspect_pe_bytes_safe (bytes : List Byte) :
    (inspect_pe_bytes_traced bytes).1 = inspect_pe_bytes bytes ∧
    ∀ w ∈ (inspect_pe_bytes_traced bytes).2,
      w.1 + w.2 ≤ bytes.length ∧ w.1 + w.2 < 18446744073709551616 := by
  unfold inspect_pe_bytes_traced inspect_pe_bytes
  by_cases hl : bytes.length < 0x40
  · simp [hl]
  · rw [if_neg hl, if_neg hl]
    cases h1 : read_u32_le bytes 0x3C with
    | none => simp
    | some pe_offset =>
      try dsimp only
      have hpe : pe_offset < 4294967296 := read_u32_le_lt h1
      cases h2 : getSlice bytes pe_offset 4 with
      | none =>
        try dsimp only
        refine ⟨rfl, ?_⟩
        intro w hw
        simp only [List.mem_singleton] at hw
        subst hw
        omega
      | some sig =>
        try dsimp only
        have hg4 : pe_offset + 4 ≤ bytes.length := getSlice_bound h2
        by_cases hsig : sig = peSig
        · rw [if_neg (fun hc => hc hsig), if_neg (fun hc => hc hsig)]
          try dsimp only
          cases hm : read_u16_le bytes (pe_offset + 4) with
          | none =>
            try dsimp only
            refine ⟨rfl, ?_⟩
            intro w hw
            simp only [List.mem_cons, List.mem_singleton, List.not_mem_nil,
              or_false] at hw
            rcases hw with rfl | rfl <;> omega
          | some machine =>
            try dsimp only
            have hb1 := read_u16_le_bound hm
            cases ho : read_u16_le bytes (pe_offset + 4 + 16) with
            | none =>
              try dsimp only
              refine ⟨rfl, ?_⟩
              intro w hw
              simp only [List.mem_cons, List.mem_singleton, List.not_mem_nil,
                or_false] at hw
              rcases hw with rfl | rfl | rfl <;> omega
            | some optional_size =>
              try dsimp only
              have hb2 := read_u16_le_bound ho
              by_cases hos : optional_size < 0x46
              · rw [if_pos hos, if_pos hos]
                refine ⟨rfl, ?_⟩
                intro w hw
                simp only [List.mem_cons, List.mem_singleton, List.not_mem_nil,
                  or_false] at hw
                rcases hw with rfl | rfl | rfl | rfl <;> omega
              · rw [if_neg hos, if_neg hos]
                cases hmg : read_u16_le bytes (pe_offset + 4 + 20) with
                | none =>
                  try dsimp only
                  refine ⟨rfl, ?_⟩
                  intro w hw
                  simp only [List.mem_cons, List.mem_singleton,
                    List.not_mem_nil, or_false] at hw
                  rcases hw with rfl | rfl | rfl | rfl <;> omega
                | some magic =>
                  try dsimp only
                  have hb3 := read_u16_le_bound hmg
                  by_cases hmag : magic ≠ 0x10B ∧ magic ≠ 0x20B
                  · rw [if_pos hmag, if_pos hmag]
                    refine ⟨rfl, ?_⟩
                    intro w hw
                    simp only [List.mem_cons, List.mem_singleton,
                      List.not_mem_nil, or_false] at hw
                    rcases hw with rfl | rfl | rfl | rfl | rfl <;> omega
                  · rw [if_neg hmag, if_neg hmag]
                    cases hep : read_u32_le bytes (pe_offset + 4 + 20 + 0x10) with
                    | none =>
                      try dsimp only
                      refine ⟨rfl, ?_⟩
                      intro w hw
                      simp only [List.mem_cons, List.mem_singleton,
                        List.not_mem_nil, or_false] at hw
                      rcases hw with rfl | rfl | rfl | rfl | rfl <;> omega
                    | some entry_point_rva =>
                      try dsimp only
                      have hb4 := read_u32_le_bound hep
                      cases hsub : read_u16_le bytes (pe_offset + 4 + 20 + 0x44) with
                      | none =>
                        try dsimp only
                        refine ⟨rfl, ?_⟩
                        intro w hw
                        simp only [List.mem_cons, List.mem_singleton,
                          List.not_mem_nil, or_false] at hw
                        rcases hw with rfl | rfl | rfl | rfl | rfl | rfl <;> omega
                      | some subsystem =>
                        try dsimp only
                        have hb5 := read_u16_le_bound hsub
                        refine ⟨rfl, ?_⟩
                        intro w hw
                        simp only [List.mem_cons, List.mem_singleton,
                          List.not_mem_nil, or_false] at hw
                        rcases hw with rfl | rfl | rfl | rfl | rfl | rfl | rfl <;>
                          omega
        · rw [if_pos hsig, if_pos hsig]
          refine ⟨rfl, ?_⟩
          intro w hw
          simp only [List.mem_cons, List.mem_singleton, List.not_mem_nil,
            or_false] at hw
          rcases hw with rfl | rfl <;> omega

/-- Model of `inspect_pe_path`: the file system is an oracle from paths to
optional byte buffers; a failed `fs::read` is `none` and maps to the
Unrecognized outcome. -/
def inspect_pe_path (fs : String → Option (List Byte)) (path : String) :
    Option (Nat × Nat × Nat) :=
  match fs path with
  | none => none
  | some bytes => inspect_pe_bytes bytes

/-- Model of `c_path_to_path`: a null `*const c_char` argument is `none`. -/
def c_path_to_path (path : Option String) : Option String :=
  match path with
  | none => none
  | some p => some p

/-- Model of the private `inspect_path` helper in `vodka-core`. -/
def inspect_path (fs : String → Option (List Byte)) (path : Option String) :
    Option (Nat × Nat × Nat) :=
  match c_path_to_path path with
  | none => none
  | some p => inspect_pe_path fs p

/-- Write `v` through an out-pointer when it is non-null: `none` models a
null pointer (never written), `some x` a pointer at a cell holding `x`. -/
def writeOut (ptr : Option Nat) (v : Nat) : Option Nat :=
  match ptr with
  | none => none
  | some _ => some v

/-- Model of the C entry point `vodka_pe_inspect`: the boolean return value
together with the final contents of the three out-cells.  The model is a
total function, reflecting that `catch_unwind` lets no fault escape the
extern boundary. -/
def vodka_pe_inspect (fs : String → Option (List Byte)) (path : Option String)
    (machine subsystem entry_point_rva : Option Nat) :
    Bool × Option Nat × Option Nat × Option Nat :=
  match inspect_path fs path with
  | none => (false, machine, subsystem, entry_point_rva)
  | some (machine_value, subsystem_value, entry_point_value) =>
    (true, writeOut machine machine_value, writeOut subsystem subsystem_value,
     writeOut entry_point_rva entry_point_value)

/-- Model of `vodka_pe_validate_file`: `vodka_pe_inspect` with three null
out-pointers, keeping only the boolean. -/
def vodka_pe_validate_file (fs : String → Option (List Byte))
    (path : Option String) : Bool :=
  (vodka_pe_inspect fs path none none none).1

/-- Model of `vodka_pe_extract_header`. -/
def vodka_pe_extract_header (fs : String → Option (List Byte))
    (path : Option String) (machine subsystem entry_point_rva : Option Nat) :
    Bool × Option Nat × Option Nat × Option Nat :=
  vodka_pe_inspect fs path machine subsystem entry_point_rva

/-- Model of the alias entry point `whisky_rust_pe_validate_file`. -/
def whisky_rust_pe_validate_file (fs : String → Option (List Byte))
    (path : Option String) : Bool :=
  vodka_pe_validate_file fs path

/-- Model of the alias entry point `whisky_rust_pe_extract_header`. -/
def whisky_rust_pe_extract_header (fs : String → Option (List Byte))
    (path : Option String) (machine subsystem entry_point_rva : Option Nat) :
    Bool × Option Nat × Option Nat × Option Nat :=
  vodka_pe_extract_header fs path machine subsystem entry_point_rva

/-- C6: `vodka_pe_validate_file` returns exactly the boolean of
`vodka_pe_inspect` with the extracted fields discarded (whatever the
out-pointers), and the two `whisky_rust_` alias entry points agree with
`vodka_pe_validate_file` and `vodka_pe_extract_header` on every input. -/
theorem vodka_pe_entry_points_equiv (fs : String → Option (List Byte))
    (path : Option String) (m s e : Option Nat) :
    vodka_pe_validate_file fs path = (vodka_pe_inspect fs path m s e).1 ∧
    whisky_rust_pe_validate_file fs path = vodka_pe_validate_file fs path ∧
    whisky_rust_pe_extract_header fs path m s e =
      vodka_pe_extract_header fs path m s e ∧
    vodka_pe_extract_header fs path m s e = vodka_pe_inspect fs path m s e := by
  refine ⟨?_, rfl, rfl, rfl⟩
  unfold vodka_pe_validate_file vodka_pe_inspect
  cases hv : inspect_path fs path with
  | none => rfl
  | some v =>
    obtain ⟨mv, sv, ev⟩ := v
    rfl

/-- C7: `vodka_pe_inspect` returns `true` exactly when the parse outcome is
Recognized; on success it writes each extracted field through the
corresponding out-pointer, where a null out-pointer is never written; on any
failure it returns `false` and leaves all three out-cells untouched. -/
theorem vodka_pe_inspect_frame (fs : String → Option (List Byte))
    (path : Option String) (m s e : Option Nat) :
    ((vodka_pe_inspect fs path m s e).1 = true ↔
      (inspect_path fs path).isSome) ∧
    (∀ mv sv ev, inspect_path fs path = some (mv, sv, ev) →
      vodka_pe_inspect fs path m s e =
        (true, writeOut m mv, writeOut s sv, writeOut e ev)) ∧
    (inspect_path fs path = none →
      vodka_pe_inspect fs path m s e = (false, m, s, e)) ∧
    (m = none → (vodka_pe_inspect fs path m s e).2.1 = none) ∧
    (s = none → (vodka_pe_inspect fs path m s e).2.2.1 = none) ∧
    (e = none → (vodka_pe_inspect fs path m s e).2.2.2 = none) := by
  unfold vodka_pe_inspect
  cases hv : inspect_path fs path with
  | none =>
    refine ⟨by simp, ?_, fun _ => rfl, ?_, ?_, ?_⟩
    · intro mv sv ev h
      exact absurd h (by simp)
    · rintro rfl; rfl
    · rintro rfl; rfl
    · rintro rfl; rfl
  | some v =>
    obtain ⟨mv, sv, ev⟩ := v
    refine ⟨by simp, ?_, ?_, ?_, ?_, ?_⟩
    · intro mv' sv' ev' h
      simp only [Option.some.injEq, Prod.mk.injEq] at h
      obtain ⟨rfl, rfl, rfl⟩ := h
      rfl
    · intro h
      exact absurd h (by simp)
    · rintro rfl; rfl
    · rintro rfl; rfl
    · rintro rfl; rfl

/-- Witness for C7: with a file system where every read fails and all three
out-cells non-null, the call returns `false` and the cells keep their prior
contents. -/
theorem vodka_pe_inspect_frame_witness :
    vodka_pe_inspect (fun _ => none) (some "a") (some 1) (some 2) (some 3) =
      (false, some 1, some 2, some 3) :=
  (vodka_pe_inspect_frame (fun _ => none) (some "a")
    (some 1) (some 2) (some 3)).2.2.1 rfl

/-- C8: on a path whose read fails, the Buffer Loader `inspect_pe_path`
yields the Unrecognized outcome rather than a distinct I/O error, and at the
C boundary `vodka_pe_inspect` maps the same failure to a plain `false`
return with untouched out-cells; the boundary model is a total function, so
no fault crosses it. -/
theorem inspect_pe_path_io_failure (fs : String → Option (List Byte))
    (path : String) (m s e : Option Nat) (h : fs path = none) :
    inspect_pe_path fs path = none ∧
    vodka_pe_inspect fs (some path) m s e = (false, m, s, e) := by
  have h1 : inspect_pe_path fs path = none := by
    unfold inspect_pe_path
    rw [h]
  have h2 : inspect_path fs (some path) = none := h1
  refine ⟨h1, ?_⟩
  unfold vodka_pe_inspect
  rw [h2]

/-- Witness for C8: a file system where every read fails. -/
theorem inspect_pe_path_io_failure_witness :
    inspect_pe_path (fun _ => none) "missing" = none ∧
    vodka_pe_inspect (fun _ => none) (some "missing")
      (some 4) (some 5) (some 6) = (false, some 4, some 5, some 6) :=
  inspect_pe_path_io_failure (fun _ => none) "missing"
    (some 4) (some 5) (some 6) rfl

theorem byteAt_congr {bytes bytes' : List Byte} {k i : Nat}
    (hd : bytes.drop k = bytes'.drop k) (hk : k ≤ i) :
    byteAt bytes i = byteAt bytes' i := by
  have h1 : (bytes.drop k)[i - k]? = bytes[i]? := by
    rw [List.getElem?_drop]
    congr 1
    omega
  have h2 : (bytes'.drop k)[i - k]? = bytes'[i]? := by
    rw [List.getElem?_drop]
    congr 1
    omega
  unfold byteAt
  rw [List.getD_eq_getElem?_getD, List.getD_eq_getElem?_getD, ← h1, ← h2, hd]

theorem read_u16_le_congr {bytes bytes' : List Byte} {k o : Nat}
    (hlen : bytes.length = bytes'.length) (hd : bytes.drop k = bytes'.drop k)
    (hk : k ≤ o) : read_u16_le bytes o = read_u16_le bytes' o := by
  unfold read_u16_le
  rw [hlen, byteAt_congr hd hk, byteAt_congr hd (show k ≤ o + 1 by omega)]

theorem read_u32_le_congr {bytes bytes' : List Byte} {k o : Nat}
    (hlen : bytes.length = bytes'.length) (hd : bytes.drop k = bytes'.drop k)
    (hk : k ≤ o) : read_u32_le bytes o = read_u32_le bytes' o := by
  unfold read_u32_le
  rw [hlen, byteAt_congr hd hk, byteAt_congr hd (show k ≤ o + 1 by omega),
      byteAt_congr hd (show k ≤ o + 2 by omega),
      byteAt_congr hd (show k ≤ o + 3 by omega)]

theorem getSlice_congr {bytes bytes' : List Byte} {k o l : Nat}
    (hlen : bytes.length = bytes'.length) (hd : bytes.drop k = bytes'.drop k)
    (hk : k ≤ o) : getSlice bytes o l = getSlice bytes' o l := by
  have hdo : bytes.drop o = bytes'.drop o := by
    have h1 : bytes.drop o = (bytes.drop k).drop (o - k) := by
      rw [List.drop_drop]
      congr 1
      omega
    have h2 : bytes'.drop o = (bytes'.drop k).drop (o - k) := by
      rw [List.drop_drop]
      congr 1
      omega
    rw [h1, h2, hd]
  unfold getSlice
  rw [hlen, hdo]

set_option maxRecDepth 8192 in
/-- C9: the parser never validates the DOS `MZ` magic.  First, the outcome
depends on the DOS header region only through the 4-byte PE-offset field at
0x3C: two buffers of equal length that agree from offset 0x3C on, whose
decoded PE offset points past the DOS header, parse identically.  Second,
there is a buffer whose first two bytes are not `M`,`Z` that is still
Recognized, with machine 0x8664, subsystem 2, entry-point RVA 0x12345678. -/
theorem inspect_pe_bytes_no_mz :
    (∀ (bytes bytes' : List Byte) (pe_offset : Nat),
      bytes.length = bytes'.length →
      bytes.drop 0x3C = bytes'.drop 0x3C →
      read_u32_le bytes 0x3C = some pe_offset →
      0x40 ≤ pe_offset →
      inspect_pe_bytes bytes = inspect_pe_bytes bytes') ∧
    (∃ bytes : List Byte, byteAt bytes 0 ≠ 0x4D ∧ byteAt bytes 1 ≠ 0x5A ∧
      inspect_pe_bytes bytes = some (0x8664, 2, 0x12345678)) := by
  constructor
  · intro bytes bytes' pe_offset hlen hd h1 hpe
    have h1' : read_u32_le bytes' 0x3C = some pe_offset := by
      rw [← read_u32_le_congr hlen hd (le_refl 0x3C)]
      exact h1
    unfold inspect_pe_bytes
    rw [hlen, h1, h1']
    by_cases hl : bytes'.length < 0x40
    · rw [if_pos hl, if_pos hl]
    · rw [if_neg hl, if_neg hl]
      try dsimp only
      rw [getSlice_congr hlen hd (show 0x3C ≤ pe_offset by omega),
          read_u16_le_congr hlen hd (show 0x3C ≤ pe_offset + 4 by omega),
          read_u16_le_congr hlen hd (show 0x3C ≤ pe_offset + 4 + 16 by omega),
          read_u16_le_congr hlen hd (show 0x3C ≤ pe_offset + 4 + 20 by omega),
          read_u32_le_congr hlen hd
            (show 0x3C ≤ pe_offset + 4 + 20 + 0x10 by omega),
          read_u16_le_congr hlen hd
            (show 0x3C ≤ pe_offset + 4 + 20 + 0x44 by omega)]
  · exact ⟨setBytes build_minimal_pe 0x00 [0x00, 0x00],
      by decide, by decide, by decide⟩

set_option maxRecDepth 8192 in
/-- Witness for C9: blanking the `MZ` magic of the minimal PE buffer leaves
the parse outcome unchanged. -/
theorem inspect_pe_bytes_no_mz_witness :
    inspect_pe_bytes build_minimal_pe =
      inspect_pe_bytes (setBytes build_minimal_pe 0x00 [0x00, 0x00]) :=
  inspect_pe_bytes_no_mz.1 build_minimal_pe
    (setBytes build_minimal_pe 0x00 [0x00, 0x00]) 0x80
    (by decide) (by decide) (by decide) (by decide)

/-- Rust `char::is_whitespace`: the Unicode White_Space property, the class
`str::trim` actually removes. -/
def rustIsWhitespace (c : Char) : Bool :=
  decide (c.toNat = 0x9) || decide (c.toNat = 0xA) || decide (c.toNat = 0xB) ||
  decide (c.toNat = 0xC) || decide (c.toNat = 0xD) || decide (c.toNat = 0x20) ||
  decide (c.toNat = 0x85) || decide (c.toNat = 0xA0) ||
  decide (c.toNat = 0x1680) ||
  (decide (0x2000 ≤ c.toNat) && decide (c.toNat ≤ 0x200A)) ||
  decide (c.toNat = 0x2028) || decide (c.toNat = 0x2029) ||
  decide (c.toNat = 0x202F) || decide (c.toNat = 0x205F) ||
  decide (c.toNat = 0x3000)

/-- Rust `str::trim`: remove Unicode whitespace from both ends. -/
def rustTrim (s : List Char) : List Char :=
  ((s.dropWhile rustIsWhitespace).reverse.dropWhile rustIsWhitespace).reverse

/-- Rust `str::strip_prefix`: remove `p` from the front of `s` if present. -/
def stripPfx (s p : List Char) : Option (List Char) :=
  if s.take p.length = p then some (s.drop p.length) else none

/-- The literal prefix `wine-`. -/
def winePfx : List Char := ['w', 'i', 'n', 'e', '-']

/-- The two prefix-stripping steps of `normalize_wine_tag`: at most one
leading `wine-`, then at most one leading `v`, in that order. -/
def stripTag (value : List Char) : List Char :=
  let value1 :=
    match stripPfx value winePfx with
    | some stripped => stripped
    | none => value
  match stripPfx value1 ['v'] with
  | some stripped => stripped
  | none => value1

/-- The accumulation loop of `normalize_wine_tag`: push ASCII digits and
dots, break at the first other character. -/
def takeDigitsDots : List Char → List Char
  | [] => []
  | c :: cs => if c.isDigit || c == '.' then c :: takeDigitsDots cs else []

/-- Model of `normalize_wine_tag` from `vodka-runtime/src/lib.rs`. -/
def normalize_wine_tag (input : List Char) : Option (List Char) :=
  let value := rustTrim input
  if value.isEmpty then none else
  let normalized := takeDigitsDots (stripTag value)
  if normalized.isEmpty then none else some normalized

/-- ASCII whitespace, the class named by the claim. -/
def asciiIsWhitespace (c : Char) : Bool :=
  decide (c.toNat = 0x9) || decide (c.toNat = 0xA) || decide (c.toNat = 0xC) ||
  decide (c.toNat = 0xD) || decide (c.toNat = 0x20)

/-- Trim restricted to ASCII whitespace, as the claim words it. -/
def asciiTrim (s : List Char) : List Char :=
  ((s.dropWhile asciiIsWhitespace).reverse.dropWhile asciiIsWhitespace).reverse

/-- The claim's description of `normalize_wine_tag`, taken at its word: trim
ASCII whitespace, strip the two prefixes, then return the maximal prefix of
ASCII digits and dots when non-empty, `none` when it is empty. -/
def claimed_normalize_ascii (input : List Char) : Option (List Char) :=
  if ((stripTag (asciiTrim input)).takeWhile
        (fun c => c.isDigit || c == '.')).isEmpty then none
  else some ((stripTag (asciiTrim input)).takeWhile
        (fun c => c.isDigit || c == '.'))

/-- The claim's description amended in the whitespace class only: the trim
removes Unicode whitespace, as Rust `str::trim` does. -/
def claimed_normalize (input : List Char) : Option (List Char) :=
  if ((stripTag (rustTrim input)).takeWhile
        (fun c => c.isDigit || c == '.')).isEmpty then none
  else some ((stripTag (rustTrim input)).takeWhile
        (fun c => c.isDigit || c == '.'))

/-- Counterexample to C10 as stated: on NO-BREAK SPACE followed by `9`, the
code's Unicode trim removes the leading U+00A0, giving `Some "9"`, while the
claim's ASCII-whitespace description leaves it in place, makes the maximal
digit/dot prefix empty, and so demands `None`. -/
theorem normalize_wine_tag_ascii_counterexample :
    normalize_wine_tag [Char.ofNat 0xA0, '9'] = some ['9'] ∧
    claimed_normalize_ascii [Char.ofNat 0xA0, '9'] = none := by
  decide

/-- C10 amended: `normalize_wine_tag` trims Unicode whitespace (as Rust
`str::trim`), strips at most one leading `wine-` then at most one leading
`v`, and returns the maximal prefix of ASCII digits and `.` of the rest
exactly when that prefix is non-empty; any returned string is non-empty and
all its characters are ASCII digits or dots. -/
theorem normalize_wine_tag_spec (input : List Char) :
    normalize_wine_tag input = claimed_normalize input ∧
    (∀ s, normalize_wine_tag input = some s →
      s ≠ [] ∧ ∀ c ∈ s, (c.isDigit || c == '.') = true) := by
  have htw : ∀ l : List Char,
      takeDigitsDots l = l.takeWhile (fun c => c.isDigit || c == '.') := by
    intro l
    induction l with
    | nil => rfl
    | cons c cs ih =>
      cases hp : (c.isDigit || c == '.') <;>
        simp [takeDigitsDots, List.takeWhile_cons, hp, ih]
  have heq : normalize_wine_tag input = claimed_normalize input := by
    unfold normalize_wine_tag claimed_normalize
    try dsimp only
    by_cases hv : (rustTrim input).isEmpty
    · have hnil : rustTrim input = [] := List.isEmpty_iff.mp hv
      rw [if_pos hv, hnil]
      rfl
    · rw [if_neg hv]
      simp only [htw]
  refine ⟨heq, ?_⟩
  intro s hs
  rw [heq] at hs
  unfold claimed_normalize at hs
  by_cases ht : ((stripTag (rustTrim input)).takeWhile
      (fun c => c.isDigit || c == '.')).isEmpty
  · rw [if_pos ht] at hs
    exact absurd hs (by simp)
  · rw [if_neg ht] at hs
    have hseq := Option.some.inj hs
    subst hseq
    constructor
    · intro hnil
      rw [hnil] at ht
      simp at ht
    · intro c hc
      exact List.mem_takeWhile_imp (p := fun c => c.isDigit || c == '.') hc

set_option maxRecDepth 8192 in
/-- Witness for C1: the PE-offset window dereferenced on the minimal PE
buffer is inside the buffer and below the usize range. -/
theorem inspect_pe_bytes_safe_witness :
    ((0x3C, 4) : Nat × Nat).1 + ((0x3C, 4) : Nat × Nat).2 ≤
      build_minimal_pe.length ∧
    ((0x3C, 4) : Nat × Nat).1 + ((0x3C, 4) : Nat × Nat).2 <
      18446744073709551616 :=
  (inspect_pe_bytes_safe build_minimal_pe).2 (0x3C, 4) (by decide)

/-- Witness for C10's amended theorem at the tag `wine-11.2`. -/
theorem normalize_wine_tag_spec_witness :
    normalize_wine_tag ['w', 'i', 'n', 'e', '-', '1', '1', '.', '2'] =
      claimed_normalize ['w', 'i', 'n', 'e', '-', '1', '1', '.', '2'] ∧
    (['1', '1', '.', '2'] : List Char) ≠ [] :=
  ⟨(normalize_wine_tag_spec ['w', 'i', 'n', 'e', '-', '1', '1', '.', '2']).1,
   ((normalize_wine_tag_spec ['w', 'i', 'n', 'e', '-', '1', '1', '.', '2']).2
      ['1', '1', '.', '2'] (by decide)).1⟩
